import Mathlib

/-!
Verification of the PDF text-extractor core (`pdf-extractor-app.py`).

The program is shallowly embedded below: every definition is a direct
translation of the corresponding Python function.  Coordinates of extracted
words (`top`, `x0`) are modelled as integers (layout units); character
classes of the regular expressions are modelled over the ASCII range, where
each transformation step acts exactly as Python's `re` module does.
-/

deriving instance DecidableEq for Except

namespace PdfExtractor

/-! ### TextSanitizer (`post_process_text`)

`post_process_text` applies, in order,
1. `re.sub(r'[^\w\s.,!?;:()\-\x27\x22áéíóúÁÉÍÓÚñÑ]', '', text)`
2. `re.sub(r'\s+([.,!?;:])', r'\1', text)`
3. `re.sub(r'\.(?!\s)', '. ', text)`
4. `re.sub(r'\n{3,}', '\n\n', text)`
5. `text.strip()`
Each step is translated to a recursive function on `List Char` that is
extensionally equal to the corresponding `re.sub` pass. -/

/-- Python's `\s` character class (whitespace). -/
def pyIsSpace (c : Char) : Bool :=
  c = ' ' || c = '\t' || c = '\n' || c = '\r' || c = '\x0b' || c = '\x0c'

/-- The punctuation class `[.,!?;:]` used by steps 2 and 3. -/
def isPunct (c : Char) : Bool :=
  c = '.' || c = ',' || c = '!' || c = '?' || c = ';' || c = ':'

/-- Python's `\w` character class (word characters). -/
def isWordChar (c : Char) : Bool := c.isAlphanum || c = '_'

/-- The extra punctuation kept by the whitelist: `( ) - ' "`. -/
def isExtraKept (c : Char) : Bool :=
  c = '(' || c = ')' || c = '-' || c = '\'' || c = '"'

/-- Accented Latin vowels and `ñ/Ñ`, kept by the whitelist. -/
def isAccented (c : Char) : Bool :=
  c = 'á' || c = 'é' || c = 'í' || c = 'ó' || c = 'ú' ||
  c = 'Á' || c = 'É' || c = 'Í' || c = 'Ó' || c = 'Ú' || c = 'ñ' || c = 'Ñ'

/-- The whitelist of step 1: `[\w\s.,!?;:()\-'"áéíóúÁÉÍÓÚñÑ]`. -/
def isWhitelisted (c : Char) : Bool :=
  isWordChar c || pyIsSpace c || isPunct c || isExtraKept c || isAccented c

/-- Step 1: remove every character not in the whitelist. -/
def removeNonWhitelisted (l : List Char) : List Char := l.filter isWhitelisted

/-- Does the list start with a whitespace run that reaches a `[.,!?;:]`
character?  (This is exactly when a whitespace character placed in front
of the list lies inside a `\s+([.,!?;:])` match.) -/
def wsBeforePunct : List Char → Bool
  | [] => false
  | c :: cs => isPunct c || (pyIsSpace c && wsBeforePunct cs)

/-- Step 2: `re.sub(r'\s+([.,!?;:])', r'\1', text)` — delete every whitespace
run that immediately precedes one of `. , ! ? ; :`. -/
def stripWsBeforePunct : List Char → List Char
  | [] => []
  | c :: cs =>
    if pyIsSpace c && wsBeforePunct cs then stripWsBeforePunct cs
    else c :: stripWsBeforePunct cs

/-- Step 3: `re.sub(r'\.(?!\s)', '. ', text)` — insert a space after every
period that is not followed by whitespace.  The negative lookahead succeeds
at end of string, so a terminal period also receives a space. -/
def insertSpaceAfterPeriod : List Char → List Char
  | [] => []
  | [c] => if c = '.' then ['.', ' '] else [c]
  | c :: d :: rest =>
    if c = '.' then
      if pyIsSpace d then '.' :: insertSpaceAfterPeriod (d :: rest)
      else '.' :: ' ' :: insertSpaceAfterPeriod (d :: rest)
    else c :: insertSpaceAfterPeriod (d :: rest)

/-- Step 4: `re.sub(r'\n{3,}', '\n\n', text)` — every maximal run of three or
more newlines is replaced by exactly two (drop leading newlines of a run of
three). -/
def collapseNewlines : List Char → List Char
  | [] => []
  | [a] => [a]
  | [a, b] => [a, b]
  | a :: b :: c :: rest =>
    if a = '\n' && b = '\n' && c = '\n' then collapseNewlines (b :: c :: rest)
    else a :: collapseNewlines (b :: c :: rest)

/-- Left part of `str.strip()`: drop leading whitespace. -/
def trimLeft (l : List Char) : List Char := l.dropWhile pyIsSpace

/-- Right part of `str.strip()`: drop trailing whitespace. -/
def trimRight : List Char → List Char
  | [] => []
  | c :: cs =>
    if (trimRight cs).isEmpty && pyIsSpace c then [] else c :: trimRight cs

/-- Step 5: `text.strip()`. -/
def pyStrip (l : List Char) : List Char := trimLeft (trimRight l)

/-- The whole sanitizer pipeline of `post_process_text` on a character list. -/
def sanitizeChars (l : List Char) : List Char :=
  pyStrip (collapseNewlines (insertSpaceAfterPeriod (stripWsBeforePunct
    (removeNonWhitelisted l))))

/-- The sanitizer on strings. -/
def pySanitize (s : String) : String := ⟨sanitizeChars s.data⟩

/-- The body of `post_process_text`'s `try` block.  Every step is a total
transformation (`re.sub` on a valid pattern and `str.strip` cannot raise), so
the attempt always succeeds. -/
def sanitizeAttempt (s : String) : Except String String :=
  Except.ok (pySanitize s)

/-- `post_process_text(text)`: `None` becomes `""`; otherwise the sanitizer
runs inside `try`, and the `except` branch returns the input unchanged. -/
def post_process_text (t : Option String) : String :=
  match t with
  | none => ""
  | some s =>
    match sanitizeAttempt s with
    | Except.ok r => r
    | Except.error _ => s

/-! ### LineAssembler and PageProcessor (`process_page`)

`process_page` sorts the extracted words by `(top, x0)`, scans them keeping a
current line and the previous word's `top`, starts a new line whenever
`abs(word['top'] - current_y) > 3`, renders each line by re-sorting it by
`x0` and joining the texts with single spaces, and finally sanitizes the
page text.  A `None` page, an empty word list, and an extraction failure
each produce an inline placeholder string. -/

/-- A word box returned by the word extractor: its text and the `top`/`x0`
coordinates used by `process_page` (layout units, modelled as integers). -/
structure Token where
  text : String
  top : Int
  x0 : Int
deriving DecidableEq

/-- Default token (used only for `headD`/`getLastD` in statements). -/
def dTok : Token := ⟨"", 0, 0⟩

/-- The sort key `(x['top'], x['x0'])` compared lexicographically. -/
def tokLE (a b : Token) : Prop :=
  a.top < b.top ∨ (a.top = b.top ∧ a.x0 ≤ b.x0)

instance : DecidableRel tokLE := fun a b => by unfold tokLE; infer_instance

instance : IsTotal Token tokLE :=
  ⟨fun a b => by unfold tokLE; omega⟩

instance : IsTrans Token tokLE :=
  ⟨fun a b c hab hbc => by unfold tokLE at *; omega⟩

/-- `sorted(words, key=lambda x: (x['top'], x['x0']))` (a stable sort). -/
def sortTokens (ws : List Token) : List Token := List.insertionSort tokLE ws

/-- The within-line sort key `x['x0']`. -/
def xLE (a b : Token) : Prop := a.x0 ≤ b.x0

instance : DecidableRel xLE := fun a b => by unfold xLE; infer_instance

instance : IsTotal Token xLE := ⟨fun a b => by unfold xLE; omega⟩

instance : IsTrans Token xLE := ⟨fun a b c hab hbc => by unfold xLE at *; omega⟩

/-- `sorted(line, key=lambda x: x['x0'])`. -/
def xsort (line : List Token) : List Token := List.insertionSort xLE line

/-- The scanning loop of `process_page`: `cur` is `current_line`, `curY` is
`current_y` (the `top` of the previous word).  A word within tolerance 3 of
the previous word's `top` joins the current line; otherwise the current line
is closed (appended if non-empty) and a new one is started. -/
def groupRun (cur : List Token) (curY : Int) : List Token → List (List Token)
  | [] => if cur.isEmpty then [] else [cur]
  | w :: ws =>
    if (w.top - curY).natAbs ≤ 3 then groupRun (cur ++ [w]) w.top ws
    else if cur.isEmpty then groupRun [w] w.top ws
    else cur :: groupRun [w] w.top ws

/-- Clustering of the (sorted) words into lines (`current_y` starts as
`None`, so the first word always opens the first line). -/
def groupLines : List Token → List (List Token)
  | [] => []
  | w :: ws => groupRun [w] w.top ws

/-- `' '.join(word['text'] for word in sorted(line, key=lambda x: x['x0']))`. -/
def lineText (line : List Token) : String :=
  String.intercalate " " ((xsort line).map Token.text)

/-- The `page_text` accumulation: `page_text += line_text + '\n'`. -/
def pageText (ls : List (List Token)) : String :=
  ls.foldl (fun acc l => acc ++ lineText l ++ "\n") ""

/-- Word extraction, line assembly and sanitization for a non-empty word
list. -/
def processWords (ws : List Token) : String :=
  post_process_text (some (pageText (groupLines (sortTokens ws))))

/-- A page as `process_page` observes it: either absent (`None`), or an
extraction outcome — a failure raised by `page.extract_words` (with its
message), or the extracted word list. -/
abbrev PageD := Option (Except String (List Token))

/-- `process_page(page, page_num)`.  All extraction failures are caught by
the surrounding `try` and turned into the inline error placeholder; the
function is total, so no failure ever propagates to the caller. -/
def process_page (page : PageD) (page_num : Nat) : String :=
  match page with
  | none => "[Error en página " ++ toString page_num ++ ": Página vacía]"
  | some (Except.error e) =>
    "[Error en página " ++ toString page_num ++ ": " ++ e ++ "]"
  | some (Except.ok ws) =>
    if ws.isEmpty then "[Página " ++ toString page_num ++ ": Sin contenido]"
    else processWords ws

/-! ### ChunkedExtractionPipeline (`extract_text_from_pdf`) -/

/-- `CHUNK_SIZE = 5`. -/
def CHUNK_SIZE : Nat := 5

/-- `MAX_TEXT_LENGTH = 1_000_000`. -/
def MAX_TEXT_LENGTH : Nat := 1000000

/-- The text produced for page index `i` (0-based); `process_page` receives
the 1-based page number `i + 1`. -/
def pageFn (pages : List PageD) (i : Nat) : String :=
  process_page (pages.getD i none) (i + 1)

/-- `extract_text_from_pdf_chunk`: processes the page range
`range(start_page, min(end_page, len(pdf.pages)))` in order. -/
def extract_text_from_pdf_chunk (pages : List PageD) (s e : Nat) : List String :=
  (List.range' s (min e pages.length - s)).map (pageFn pages)

/-- `range(0, total, CHUNK_SIZE)` — the starting indices of the batches. -/
def batchStarts (total : Nat) : List Nat :=
  List.range' 0 ((total + CHUNK_SIZE - 1) / CHUNK_SIZE) CHUNK_SIZE

/-- The message of the output-size ceiling failure. -/
def overflowMsg : String := "El texto extraído excede el límite permitido"

/-- The batch loop of `extract_text_from_pdf`: for each `start_idx` the chunk
is extracted, its character count (of non-empty texts) is added to the
running total after checking the ceiling, and the progress value
`end_idx / total_pages` is emitted.  Returns the outcome together with the
emitted progress values. -/
def extractBatches (pages : List PageD) :
    List Nat → Nat → List String → List (Nat × Nat) →
    Except String (List String) × List (Nat × Nat)
  | [], _, acc, prog => (Except.ok acc, prog)
  | s :: rest, totalLen, acc, prog =>
    let chunk := extract_text_from_pdf_chunk pages s (s + CHUNK_SIZE)
    let clen := ((chunk.filter (fun t => !t.isEmpty)).map String.length).sum
    if totalLen + clen > MAX_TEXT_LENGTH then (Except.error overflowMsg, prog)
    else
      extractBatches pages rest (totalLen + clen) (acc ++ chunk)
        (prog ++ [(min (s + CHUNK_SIZE) pages.length, pages.length)])

/-- `extract_text_from_pdf`: the ordered page texts of the whole document,
or the ceiling failure. -/
def extract_text_from_pdf (pages : List PageD) : Except String (List String) :=
  (extractBatches pages (batchStarts pages.length) 0 [] []).1

/-- The `(end_idx, total_pages)` arguments of the progress updates emitted by
a run (one update after each completed batch). -/
def progressPairs (pages : List PageD) : List (Nat × Nat) :=
  (extractBatches pages (batchStarts pages.length) 0 [] []).2

/-- The progress values `end_idx / total_pages` emitted by a run. -/
def progressTrace (pages : List PageD) : List ℚ :=
  (progressPairs pages).map (fun p => (p.1 : ℚ) / (p.2 : ℚ))

/-! ### Final document assembly (`process_and_show_pdf`) -/

/-- `"=" * 50`. -/
def pageSep : String := ⟨List.replicate 50 '='⟩

/-- The framing of one page block:
`f'[Página {i}]\n\n{page_text}\n\n{"="*50}\n\n'`. -/
def frame (i : Nat) (t : String) : String :=
  "[Página " ++ toString i ++ "]\n\n" ++ t ++ "\n\n" ++ pageSep ++ "\n\n"

/-- The `output_chunks` loop: `for i, page_text in enumerate(pages_text, 1):
if page_text: output_chunks.append(...)` — a page whose text is empty (falsy)
is skipped. -/
def output_chunks (pagesText : List String) : List String :=
  (pagesText.enumFrom 1).foldl
    (fun acc p => if p.2.isEmpty then acc else acc ++ [frame p.1 p.2]) []

/-- `process_and_show_pdf` (its text-producing core): extraction failure
propagates; an empty page-text list raises; otherwise the final document is
the concatenation of the framed blocks. -/
def process_and_show_pdf (pages : List PageD) : Except String String :=
  match extract_text_from_pdf pages with
  | Except.error e => Except.error e
  | Except.ok ts =>
    if ts.isEmpty then Except.error "No se pudo extraer texto del PDF"
    else Except.ok (String.join (output_chunks ts))

/-! ### File-size check (`check_file_size` and `main`) -/

/-- `MAX_FILE_SIZE = 100 * 1024 * 1024`. -/
def MAX_FILE_SIZE : Nat := 100 * 1024 * 1024

/-- `sys.getsizeof(file.getvalue())`: CPython returns the size of the
`bytes` object, which is its length plus the 33-byte object header
(`sys.getsizeof(b'') == 33` on 64-bit CPython) — not the byte length. -/
def sys_getsizeof_bytes (len : Nat) : Nat := len + 33

/-- `check_file_size` passes (does not raise) iff
`sys.getsizeof(file.getvalue()) <= MAX_FILE_SIZE`. -/
def check_file_size (len : Nat) : Bool := sys_getsizeof_bytes len ≤ MAX_FILE_SIZE

/-- The size-rejection message of `check_file_size`. -/
def sizeMsg : String :=
  "El archivo es demasiado grande. El tamaño máximo permitido es 100MB"

/-- `main`'s handling of an uploaded file of byte length `len` whose pages
are `pages`: the size check runs before any page is touched. -/
def app_main (len : Nat) (pages : List PageD) : Except String String :=
  if check_file_size len then process_and_show_pdf pages
  else Except.error sizeMsg

/-! ### Derived quantities used in the statements -/

/-- The texts of all pages, in page order (what a completed run returns). -/
def allPageTexts (pages : List PageD) : List String :=
  (List.range pages.length).map (pageFn pages)

/-- Total character count of the page texts of all pages with index `< e`
(capped at the page count): the pipeline's running total after the batch
ending at `e`. -/
def prefLen (pages : List PageD) (e : Nat) : Nat :=
  ((List.range (min e pages.length)).map (fun i => (pageFn pages i).length)).sum

/-- The `end_idx` of each batch. -/
def batchEnds (total : Nat) : List Nat :=
  (batchStarts total).map (fun s => min (s + CHUNK_SIZE) total)

/-- Does the running character total exceed the ceiling at the end of some
batch? -/
def crossesLimit (pages : List PageD) : Bool :=
  (batchEnds pages.length).any (fun e => prefLen pages e > MAX_TEXT_LENGTH)

/-- Tokens within tolerance: the line-membership test of the scanning loop. -/
def near (a b : Token) : Prop := (b.top - a.top).natAbs ≤ 3

/-- Adjacent lines are separated by a boundary gap above the tolerance. -/
def far (l₁ l₂ : List Token) : Prop :=
  ((l₂.headD dTok).top - (l₁.getLastD dTok).top).natAbs > 3

/-! ### Concrete inputs used by witnesses and counterexamples -/

/-- A 3-page document whose middle page raises an extraction failure. -/
def pagesFault : List PageD :=
  [some (Except.ok [⟨"a", 0, 0⟩]), some (Except.error "bad"),
   some (Except.ok [⟨"b", 0, 0⟩])]

/-- A 1-page document whose only word consists of a non-whitelisted
character, so the sanitized page text is empty. -/
def pagesEmptyText : List PageD := [some (Except.ok [⟨"€", 0, 0⟩])]

/-- Three tokens at tops 0, 3, 6: consecutive gaps are within the tolerance
but the extremes differ by 6. -/
def toksDrift : List Token := [⟨"a", 0, 0⟩, ⟨"b", 3, 0⟩, ⟨"c", 6, 0⟩]

/-- A 12-page document (each page extracts no words). -/
def pages12 : List PageD := List.replicate 12 (some (Except.ok ([] : List Token)))

/-- Tokens for the ordering witness: two on one line (given out of
horizontal order), one far below. -/
def toksOrder : List Token := [⟨"x", 0, 5⟩, ⟨"y", 0, 1⟩, ⟨"z", 10, 0⟩]

/-! ### Normal form of sanitized text

The predicates below characterize the image of the sanitizer; they are used
to prove that the sanitizer is idempotent. -/

/-- Every whitespace character immediately preceding one of `. , ! ? ; :` is
a single `' '` preceded by a period (`prev` is the character standing in
front of the list). -/
def wsPunctShaped (prev : Char) : List Char → Bool
  | [] => true
  | [_] => true
  | a :: b :: rest =>
    (if pyIsSpace a && isPunct b then a == ' ' && prev == '.' else true)
      && wsPunctShaped a (b :: rest)

/-- `wsPunctShaped` with no preceding period. -/
def wsPunctTop (l : List Char) : Bool := wsPunctShaped 'A' l

/-- No whitespace character immediately precedes a `[.,!?;:]` character. -/
def noWsPunct : List Char → Bool
  | [] => true
  | [_] => true
  | a :: b :: rest => !(pyIsSpace a && isPunct b) && noWsPunct (b :: rest)

/-- Every period that is not the last character is followed by whitespace. -/
def periodSpaced : List Char → Bool
  | [] => true
  | [_] => true
  | a :: b :: rest => (!(a == '.') || pyIsSpace b) && periodSpaced (b :: rest)

/-- No three consecutive newlines. -/
def noTripleNl : List Char → Bool
  | [] => true
  | [_] => true
  | [_, _] => true
  | a :: b :: c :: rest =>
    !(a == '\n' && b == '\n' && c == '\n') && noTripleNl (b :: c :: rest)

/-- Neither the first nor the last character is whitespace. -/
def trimmed (l : List Char) : Bool :=
  !(pyIsSpace (l.headD 'x')) && !(pyIsSpace (l.getLastD 'x'))

/-- Does the list end with a period? -/
def endsDot (l : List Char) : Bool := l.getLastD 'x' == '.'

/-- The trailing space that the insertion step adds after a terminal
period (removed again by the final trim). -/
def insTail (l : List Char) : List Char := if endsDot l then [' '] else []

/-! ## Pipeline lemmas -/

/-- The `if text` filter in the batch length only drops empty strings, which
contribute nothing to the character count. -/
theorem sum_filter_lengths (ts : List String) :
    ((ts.filter (fun t => !t.isEmpty)).map String.length).sum
      = (ts.map String.length).sum := by
  induction ts with
  | nil => rfl
  | cons t ts ih =>
    by_cases h : t.isEmpty
    · have h0 : t.length = 0 := by
        rw [String.isEmpty_iff] at h
        subst h
        rfl
      simp [List.filter_cons, h, ih, h0]
    · simp [List.filter_cons, h, ih]

/-- Splitting a page range at a chunk boundary. -/
theorem range'_chunk (s n : Nat) :
    List.range' s (min (s + CHUNK_SIZE) n - s)
        ++ List.range' (s + CHUNK_SIZE) (n - (s + CHUNK_SIZE))
      = List.range' s (n - s) := by
  rcases Nat.le_total (s + CHUNK_SIZE) n with h | h
  · rw [Nat.min_eq_left h, show s + CHUNK_SIZE - s = CHUNK_SIZE from by omega,
      List.range'_append_1 s CHUNK_SIZE (n - (s + CHUNK_SIZE))]
    congr 1
    omega
  · rw [Nat.min_eq_right h, show n - (s + CHUNK_SIZE) = 0 from by omega]
    simp

/-- The running total before a batch plus that batch's character count is the
running total at the batch's end. -/
theorem prefLen_batch (pages : List PageD) (s : Nat) :
    prefLen pages s
        + (((extract_text_from_pdf_chunk pages s (s + CHUNK_SIZE)).filter
              (fun t => !t.isEmpty)).map String.length).sum
      = prefLen pages (min (s + CHUNK_SIZE) pages.length) := by
  rw [sum_filter_lengths]
  unfold prefLen extract_text_from_pdf_chunk
  rw [List.map_map]
  rcases Nat.le_total s pages.length with h | h
  · rw [Nat.min_eq_left h,
      Nat.min_eq_left (show min (s + CHUNK_SIZE) pages.length ≤ pages.length from
        Nat.min_le_right _ _),
      List.range_eq_range', List.range_eq_range',
      show min (s + CHUNK_SIZE) pages.length
          = (min (s + CHUNK_SIZE) pages.length - s) + s from by omega,
      ← List.range'_append_1 0 s (min (s + CHUNK_SIZE) pages.length - s)]
    simp [Nat.add_comm, Function.comp]
    rfl
  · have h1 : min s pages.length = pages.length := Nat.min_eq_right h
    have h2 : min (s + CHUNK_SIZE) pages.length = pages.length := by
      apply Nat.min_eq_right
      omega
    rw [h1, h2]
    have h3 : pages.length - s = 0 := by omega
    rw [h3]
    simp [Nat.min_self]

/-- The running total at the end of a batch is capped at the page count. -/
theorem prefLen_min (pages : List PageD) (s : Nat) :
    prefLen pages (min (s + CHUNK_SIZE) pages.length)
      = prefLen pages (s + CHUNK_SIZE) := by
  unfold prefLen
  rw [Nat.min_assoc, Nat.min_self]

/-- Main invariant of the batch loop: started at batch `s` with the running
total of the pages before `s`, the loop fails with the overflow message iff
the running total exceeds the ceiling at the end of one of the remaining
batches, and otherwise returns the accumulated texts followed by the texts of
all remaining pages. -/
theorem extractBatches_run (pages : List PageD) :
    ∀ (k s : Nat) (acc : List String) (prog : List (Nat × Nat)),
      pages.length ≤ s + CHUNK_SIZE * k →
      (extractBatches pages (List.range' s k CHUNK_SIZE) (prefLen pages s) acc prog).1
        = if ((List.range' s k CHUNK_SIZE).map
                (fun t => min (t + CHUNK_SIZE) pages.length)).any
              (fun e => prefLen pages e > MAX_TEXT_LENGTH)
          then Except.error overflowMsg
          else Except.ok
            (acc ++ (List.range' s (pages.length - s)).map (pageFn pages)) := by
  intro k
  induction k with
  | zero =>
    intro s acc prog hk
    have h0 : pages.length - s = 0 := by omega
    simp [extractBatches, h0]
  | succ k ih =>
    intro s acc prog hk
    rw [List.range'_succ]
    simp only [extractBatches]
    rw [prefLen_batch pages s]
    by_cases h : prefLen pages (min (s + CHUNK_SIZE) pages.length) > MAX_TEXT_LENGTH
    · simp [List.any_cons, h]
    · rw [if_neg h]
      have hk2 : pages.length ≤ s + CHUNK_SIZE + CHUNK_SIZE * k := by
        rw [Nat.mul_succ] at hk
        omega
      have hrec := ih (s + CHUNK_SIZE)
        (acc ++ extract_text_from_pdf_chunk pages s (s + CHUNK_SIZE))
        (prog ++ [(min (s + CHUNK_SIZE) pages.length, pages.length)]) hk2
      rw [prefLen_min pages s, hrec]
      have hfd : decide (prefLen pages (min (s + CHUNK_SIZE) pages.length)
          > MAX_TEXT_LENGTH) = false := decide_eq_false h
      simp only [List.map_cons, List.any_cons, hfd, Bool.false_or]
      by_cases hany : ((List.range' (s + CHUNK_SIZE) k CHUNK_SIZE).map
          (fun t => min (t + CHUNK_SIZE) pages.length)).any
            (fun e => decide (prefLen pages e > MAX_TEXT_LENGTH)) = true
      · rw [hany]
        simp
      · rw [Bool.not_eq_true] at hany
        rw [hany]
        simp only [Bool.false_eq_true, if_false]
        rw [List.append_assoc]
        congr 1
        unfold extract_text_from_pdf_chunk
        rw [← List.map_append, range'_chunk s pages.length]

/-- `extract_text_from_pdf` succeeds with all page texts unless the running
character total exceeds the ceiling at the end of some batch. -/
theorem extract_eq (pages : List PageD) :
    extract_text_from_pdf pages
      = if crossesLimit pages then Except.error overflowMsg
        else Except.ok (allPageTexts pages) := by
  have h0 : prefLen pages 0 = 0 := by
    unfold prefLen
    simp
  have hk : pages.length
      ≤ 0 + CHUNK_SIZE * ((pages.length + CHUNK_SIZE - 1) / CHUNK_SIZE) := by
    unfold CHUNK_SIZE
    omega
  have h := extractBatches_run pages ((pages.length + CHUNK_SIZE - 1) / CHUNK_SIZE) 0 [] [] hk
  rw [h0] at h
  unfold extract_text_from_pdf batchStarts crossesLimit batchEnds batchStarts allPageTexts
  rw [h]
  rw [List.range_eq_range']
  simp

/-! ## LineAssembler lemmas -/

/-- The scanning loop only regroups: flattening its output recovers the
current line followed by the remaining tokens. -/
theorem groupRun_flatten (ws : List Token) :
    ∀ (cur : List Token) (curY : Int), cur ≠ [] →
      (groupRun cur curY ws).flatten = cur ++ ws := by
  induction ws with
  | nil =>
    intro cur curY h
    rw [groupRun, if_neg (by simpa using h)]
    simp
  | cons w ws ih =>
    intro cur curY h
    rw [groupRun]
    by_cases hn : (w.top - curY).natAbs ≤ 3
    · rw [if_pos hn, ih (cur ++ [w]) w.top (by simp)]
      simp
    · rw [if_neg hn, if_neg (by simpa using h)]
      rw [List.flatten_cons, ih [w] w.top (by simp)]
      simp

/-- Every line produced by the scanning loop is non-empty. -/
theorem groupRun_ne_nil (ws : List Token) :
    ∀ (cur : List Token) (curY : Int), cur ≠ [] →
      ∀ l ∈ groupRun cur curY ws, l ≠ [] := by
  induction ws with
  | nil =>
    intro cur curY h l hl
    rw [groupRun, if_neg (by simpa using h)] at hl
    simp at hl
    subst hl
    exact h
  | cons w ws ih =>
    intro cur curY h l hl
    rw [groupRun] at hl
    by_cases hn : (w.top - curY).natAbs ≤ 3
    · rw [if_pos hn] at hl
      exact ih (cur ++ [w]) w.top (by simp) l hl
    · rw [if_neg hn, if_neg (by simpa using h)] at hl
      rcases List.mem_cons.mp hl with rfl | hl
      · exact h
      · exact ih [w] w.top (by simp) l hl

/-- The first line produced by the scanning loop extends the current line. -/
theorem groupRun_head_ext (ws : List Token) :
    ∀ (cur : List Token) (curY : Int), cur ≠ [] →
      ∃ ext rest, groupRun cur curY ws = (cur ++ ext) :: rest := by
  induction ws with
  | nil =>
    intro cur curY h
    rw [groupRun, if_neg (by simpa using h)]
    exact ⟨[], [], by simp⟩
  | cons w ws ih =>
    intro cur curY h
    rw [groupRun]
    by_cases hn : (w.top - curY).natAbs ≤ 3
    · rw [if_pos hn]
      obtain ⟨ext, rest, he⟩ := ih (cur ++ [w]) w.top (by simp)
      exact ⟨w :: ext, rest, by simpa using he⟩
    · rw [if_neg hn, if_neg (by simpa using h)]
      exact ⟨[], groupRun [w] w.top ws, by simp⟩

/-- Within every produced line, each token is within the tolerance of the
previous one (the tolerance is chained, not anchored). -/
theorem groupRun_chain_near (ws : List Token) :
    ∀ (cur : List Token) (curY : Int) (a : Token), cur.getLast? = some a →
      curY = a.top → List.Chain' near cur →
      ∀ l ∈ groupRun cur curY ws, List.Chain' near l := by
  induction ws with
  | nil =>
    intro cur curY a hla hy hc l hl
    have h : cur ≠ [] := by
      intro hnil
      subst hnil
      simp at hla
    rw [groupRun, if_neg (by simpa using h)] at hl
    simp at hl
    subst hl
    exact hc
  | cons w ws ih =>
    intro cur curY a hla hy hc l hl
    have h : cur ≠ [] := by
      intro hnil
      subst hnil
      simp at hla
    rw [groupRun] at hl
    by_cases hn : (w.top - curY).natAbs ≤ 3
    · rw [if_pos hn] at hl
      refine ih (cur ++ [w]) w.top w (List.getLast?_concat cur) rfl ?_ l hl
      rw [List.chain'_append]
      refine ⟨hc, List.chain'_singleton w, ?_⟩
      intro x hx y hy2
      rw [hla] at hx
      simp at hx hy2
      subst hx
      subst hy2
      unfold near
      rw [← hy]
      exact hn
    · rw [if_neg hn, if_neg (by simpa using h)] at hl
      rcases List.mem_cons.mp hl with rfl | hl
      · exact hc
      · exact ih [w] w.top w rfl rfl (List.chain'_singleton w) l hl

/-- Consecutive produced lines are separated by a gap above the tolerance
between the last token of one and the first token of the next (in scan
order). -/
theorem groupRun_chain_far (ws : List Token) :
    ∀ (cur : List Token) (curY : Int) (a : Token), cur.getLast? = some a →
      curY = a.top → List.Chain' far (groupRun cur curY ws) := by
  induction ws with
  | nil =>
    intro cur curY a hla hy
    have h : cur ≠ [] := by
      intro hnil
      subst hnil
      simp at hla
    rw [groupRun, if_neg (by simpa using h)]
    exact List.chain'_singleton cur
  | cons w ws ih =>
    intro cur curY a hla hy
    have h : cur ≠ [] := by
      intro hnil
      subst hnil
      simp at hla
    rw [groupRun]
    by_cases hn : (w.top - curY).natAbs ≤ 3
    · rw [if_pos hn]
      exact ih (cur ++ [w]) w.top w (List.getLast?_concat cur) rfl
    · rw [if_neg hn, if_neg (by simpa using h)]
      rw [List.chain'_cons']
      refine ⟨?_, ih [w] w.top w rfl rfl⟩
      intro y hy2
      obtain ⟨ext, rest, he⟩ := groupRun_head_ext ws [w] w.top (by simp)
      rw [he] at hy2
      simp at hy2
      subst hy2
      unfold far
      have h1 : (w :: ext).headD dTok = w := rfl
      have h2 : cur.getLastD dTok = a := by
        rw [List.getLastD_eq_getLast?, hla]
        rfl
      rw [h1, h2, ← hy]
      omega

/-- `groupLines` of any token list: flattening recovers the input, all lines
are non-empty and chained within tolerance, and consecutive lines are
separated by more than the tolerance. -/
theorem groupLines_spec (ts : List Token) :
    (groupLines ts).flatten = ts
    ∧ (∀ l ∈ groupLines ts, l ≠ [] ∧ List.Chain' near l)
    ∧ List.Chain' far (groupLines ts) := by
  cases ts with
  | nil => simp [groupLines]
  | cons w ws =>
    unfold groupLines
    refine ⟨groupRun_flatten ws [w] w.top (by simp), fun l hl => ⟨?_, ?_⟩, ?_⟩
    · exact groupRun_ne_nil ws [w] w.top (by simp) l hl
    · exact groupRun_chain_near ws [w] w.top w rfl rfl (List.chain'_singleton w) l hl
    · exact groupRun_chain_far ws [w] w.top w rfl rfl

/-- Heads of consecutive non-empty blocks of a pairwise-ordered flattening
are ordered. -/
theorem chain_heads_of_pairwise (R : Token → Token → Prop) :
    ∀ (gs : List (List Token)), (∀ l ∈ gs, l ≠ []) →
      List.Pairwise R gs.flatten →
      List.Chain' (fun l₁ l₂ => R (l₁.headD dTok) (l₂.headD dTok)) gs := by
  intro gs
  induction gs with
  | nil => intro _ _; exact List.chain'_nil
  | cons l gs ih =>
    intro hne hp
    rw [List.flatten_cons, List.pairwise_append] at hp
    rw [List.chain'_cons']
    refine ⟨?_, ih (fun x hx => hne x (List.mem_cons_of_mem l hx)) hp.2.1⟩
    intro y hy
    cases gs with
    | nil => simp at hy
    | cons g gs' =>
      simp at hy
      subst hy
      have hl : l ≠ [] := hne l (List.mem_cons_self l _)
      have hg : g ≠ [] := hne g (by simp)
      have h1 : l.headD dTok ∈ l := by
        rw [List.headD_eq_head?_getD, List.head?_eq_head hl]
        exact List.head_mem hl
      have h2 : g.headD dTok ∈ (g :: gs').flatten := by
        rw [List.flatten_cons]
        apply List.mem_append_left
        rw [List.headD_eq_head?_getD, List.head?_eq_head hg]
        exact List.head_mem hg
      exact hp.2.2 _ h1 _ h2

/-- The `(top, x0)`-sorted token list is ordered by `top`. -/
theorem sortTokens_pairwise_top (ws : List Token) :
    List.Pairwise (fun a b : Token => a.top ≤ b.top) (sortTokens ws) :=
  (List.sorted_insertionSort tokLE ws).imp (fun hab => by unfold tokLE at hab; omega)

/-- A string with a non-empty first component is non-empty. -/
theorem append_ne_empty_left (s t : String) (h : s ≠ "") : s ++ t ≠ "" := by
  intro hc
  apply h
  have hd := congrArg String.data hc
  rw [String.data_append] at hd
  rcases List.append_eq_nil.mp hd with ⟨h1, _⟩
  apply String.ext
  exact h1

/-! ## Claim theorems -/

/-- C1: any failure raised by the extraction step while `process_page`
handles a page is caught locally and turned into a `PageResult` whose text is
the inline error placeholder for that page; the failure never propagates, so
a completed run still yields exactly one page text per page of the document,
with the placeholder at the failing page's position. -/
theorem C1_page_fault_isolated (pages : List PageD) (res : List String)
    (hres : extract_text_from_pdf pages = Except.ok res) :
    res.length = pages.length
    ∧ ∀ i e, i < pages.length → pages.getD i none = some (Except.error e) →
        res.getD i "" = "[Error en página " ++ toString (i + 1) ++ ": " ++ e ++ "]" := by
  rw [extract_eq pages] at hres
  by_cases h : crossesLimit pages
  · simp [h] at hres
  · simp only [h, Bool.false_eq_true, if_false, Except.ok.injEq] at hres
    subst hres
    constructor
    · simp [allPageTexts]
    · intro i e hi he
      unfold allPageTexts
      rw [List.getD_eq_getElem?_getD, List.getElem?_map, List.getElem?_range hi]
      simp only [Option.map_some', Option.getD_some]
      unfold pageFn
      rw [he]
      rfl

/-- Witness for C1: the spec's 3-page example — page 2 raises `"bad"`, the
run completes with 3 page texts and the inline placeholder at page 2. -/
theorem C1_witness :
    (["a", "[Error en página 2: bad]", "b"] : List String).length = pagesFault.length
    ∧ (["a", "[Error en página 2: bad]", "b"] : List String).getD 1 ""
        = "[Error en página 2: bad]" := by
  have h := C1_page_fault_isolated pagesFault ["a", "[Error en página 2: bad]", "b"]
    (by decide)
  have h3 : "[Error en página " ++ toString (1 + 1) ++ ": " ++ "bad" ++ "]"
      = "[Error en página 2: bad]" := by decide
  exact ⟨h.1, h3 ▸ h.2 1 "bad" (by decide) (by decide)⟩

/-- C3: the code is intended to reject exactly the uploads whose byte length
exceeds 100 MiB, but it measures `sys.getsizeof(file.getvalue())` — byte
length plus the 33-byte CPython `bytes` header — so an upload of exactly
100 MiB (byte length not over the maximum) is already rejected before any
page is touched, while the spec requires every input of byte length at most
100 MiB to pass.  (A 101 MiB input does fail fast, as claimed.) -/
theorem C3_size_check_uses_getsizeof :
    check_file_size (100 * 1024 * 1024) = false
    ∧ app_main (100 * 1024 * 1024) pagesFault = Except.error sizeMsg
    ∧ check_file_size (101 * 1024 * 1024) = false
    ∧ check_file_size (100 * 1024 * 1024 - 33) = true := by
  refine ⟨by decide, ?_, by decide, by decide⟩
  unfold app_main
  rw [show check_file_size (100 * 1024 * 1024) = false from by decide]
  rfl

/-- C4 counterexample: tokens at tops 0, 3 and 6 all land in one line
(each step stays within the tolerance), yet the first and last differ by
6 > 3 layout units — refuting "same line only if tops differ by ≤ 3". -/
theorem C4_counterexample :
    groupLines (sortTokens toksDrift) = [toksDrift]
    ∧ toksDrift.getD 0 dTok ∈ (groupLines (sortTokens toksDrift)).getD 0 []
    ∧ toksDrift.getD 2 dTok ∈ (groupLines (sortTokens toksDrift)).getD 0 []
    ∧ ((toksDrift.getD 2 dTok).top - (toksDrift.getD 0 dTok).top).natAbs > 3 := by
  decide

/-- C4 amended: the lines partition the `(top, left)`-sorted token sequence
into contiguous non-empty blocks; two tokens share a line iff every adjacent
pair between them in scan order differs in `top` by at most 3 — consecutive
tokens of a line are within the tolerance of each other, and a new line
starts exactly where the gap from the previous token exceeds 3.  In
particular two tokens whose tops differ by at most 3 always share a line,
but a line may span tokens whose tops differ by more than 3. -/
theorem C4_line_clustering (ws : List Token) :
    (groupLines (sortTokens ws)).flatten = sortTokens ws
    ∧ (∀ l ∈ groupLines (sortTokens ws), l ≠ [] ∧ List.Chain' near l)
    ∧ List.Chain' far (groupLines (sortTokens ws)) :=
  groupLines_spec (sortTokens ws)

/-- Witness for C4 at the drift tokens: the single produced line is
non-empty and chained within the tolerance. -/
theorem C4_witness : toksDrift ≠ [] ∧ List.Chain' near toksDrift :=
  (C4_line_clustering toksDrift).2.1 toksDrift (by decide)

/-- C5 counterexample: a completed 1-page run whose page text sanitizes to
`""` (its only word is a non-whitelisted character) produces a final
document with zero page blocks — the `if page_text` test drops the page. -/
theorem C5_counterexample :
    extract_text_from_pdf pagesEmptyText = Except.ok [""]
    ∧ process_and_show_pdf pagesEmptyText = Except.ok ""
    ∧ output_chunks [""] = []
    ∧ (output_chunks [""]).length ≠ ([""] : List String).length := by
  decide

/-- The block-collection loop as a filter-and-map. -/
theorem output_chunks_foldl (ps : List (Nat × String)) (acc : List String) :
    ps.foldl (fun acc p => if p.2.isEmpty then acc else acc ++ [frame p.1 p.2]) acc
      = acc ++ (ps.filter (fun p => !p.2.isEmpty)).map (fun p => frame p.1 p.2) := by
  induction ps generalizing acc with
  | nil => simp
  | cons p ps ih =>
    by_cases h : p.2.isEmpty <;> simp [List.filter_cons, h, ih]

/-- C5 amended: the final document contains, in ascending page order, one
framed block for every page whose text is non-empty; a page whose text is
empty is dropped.  Error placeholders and no-content placeholders are
non-empty strings, so such pages are never dropped. -/
theorem C5_page_blocks (ts : List String) :
    output_chunks ts
      = ((ts.enumFrom 1).filter (fun p => !p.2.isEmpty)).map (fun p => frame p.1 p.2)
    ∧ ∀ n e, process_page none n ≠ ""
        ∧ process_page (some (Except.error e)) n ≠ ""
        ∧ process_page (some (Except.ok ([] : List Token))) n ≠ "" := by
  constructor
  · unfold output_chunks
    simpa using output_chunks_foldl (ts.enumFrom 1) []
  · intro n e
    refine ⟨?_, ?_, ?_⟩
    · show ("[Error en página " ++ toString n ++ ": Página vacía]") ≠ ""
      apply append_ne_empty_left
      apply append_ne_empty_left
      decide
    · show ("[Error en página " ++ toString n ++ ": " ++ e ++ "]") ≠ ""
      apply append_ne_empty_left
      apply append_ne_empty_left
      apply append_ne_empty_left
      apply append_ne_empty_left
      decide
    · show ("[Página " ++ toString n ++ ": Sin contenido]") ≠ ""
      apply append_ne_empty_left
      apply append_ne_empty_left
      decide

/-- Witness for C5 at a concrete page-text list: the non-empty page keeps
its framed block, and an error placeholder is a non-empty text. -/
theorem C5_witness :
    output_chunks ["a", ""]
      = (((["a", ""] : List String).enumFrom 1).filter
          (fun p => !p.2.isEmpty)).map (fun p => frame p.1 p.2)
    ∧ process_page none 7 ≠ "" := by
  have h := C5_page_blocks ["a", ""]
  exact ⟨h.1, (h.2 7 "x").1⟩

/-- C6: the run fails with the output-ceiling error exactly when, at the end
of some batch, the running character total of all page texts so far
(including that batch) exceeds `MAX_TEXT_LENGTH`; in that case the caller
receives the error and no final document text is produced. -/
theorem C6_output_ceiling (pages : List PageD) :
    extract_text_from_pdf pages
      = (if crossesLimit pages then Except.error overflowMsg
         else Except.ok (allPageTexts pages))
    ∧ process_and_show_pdf pages
      = (if crossesLimit pages then Except.error overflowMsg
         else if (allPageTexts pages).isEmpty then
           Except.error "No se pudo extraer texto del PDF"
         else Except.ok (String.join (output_chunks (allPageTexts pages)))) := by
  refine ⟨extract_eq pages, ?_⟩
  unfold process_and_show_pdf
  rw [extract_eq pages]
  by_cases h : crossesLimit pages <;> simp [h]

/-- C7: lines are ordered by non-decreasing cluster top (the `top` of each
line's first token in scan order), tokens within a line are rendered in
non-decreasing `x0` order, and the empty token sequence yields no lines. -/
theorem C7_line_ordering :
    groupLines (sortTokens ([] : List Token)) = []
    ∧ ∀ ws : List Token,
        List.Chain' (fun l₁ l₂ => (l₁.headD dTok).top ≤ (l₂.headD dTok).top)
          (groupLines (sortTokens ws))
        ∧ ∀ l ∈ groupLines (sortTokens ws), List.Chain' xLE (xsort l) := by
  refine ⟨rfl, fun ws => ⟨?_, fun l _ => ?_⟩⟩
  · have hs := groupLines_spec (sortTokens ws)
    refine chain_heads_of_pairwise (fun a b => a.top ≤ b.top)
      (groupLines (sortTokens ws)) (fun l hl => (hs.2.1 l hl).1) ?_
    rw [hs.1]
    exact sortTokens_pairwise_top ws
  · exact (List.sorted_insertionSort xLE l).chain'

/-- Witness for C7: concrete tokens produce two lines with ordered tops, and
a line given out of horizontal order is rendered sorted by `x0`. -/
theorem C7_witness :
    List.Chain' (fun l₁ l₂ => (l₁.headD dTok).top ≤ (l₂.headD dTok).top)
      (groupLines (sortTokens toksOrder))
    ∧ List.Chain' xLE (xsort [⟨"x", 0, 5⟩, ⟨"y", 0, 1⟩]) := by
  have h := C7_line_ordering.2 toksOrder
  exact ⟨h.1, h.2 [⟨"y", 0, 1⟩, ⟨"x", 0, 5⟩] (by decide)⟩

/-- C8 counterexample: the space-after-period insertion step itself does
affect a period at end of string — the negative lookahead `(?!\s)` succeeds
there, so `re.sub(r'\.(?!\s)', '. ', "a.")` yields `"a. "`. -/
theorem C8_counterexample :
    insertSpaceAfterPeriod ['a', '.'] = ['a', '.', ' ']
    ∧ insertSpaceAfterPeriod ['a', '.'] ≠ ['a', '.'] := by
  decide

/-- C8 amended: the sanitizer's pointwise examples hold —
`"hola   ." ↦ "hola."`, `"fin.Inicio" ↦ "fin. Inicio"`, five consecutive
newlines collapse to two — and although the insertion step appends a space
to a terminal period, the final trim removes it, so the whole sanitizer
leaves a terminal period unaffected. -/
theorem C8_sanitizer_examples :
    pySanitize "hola   ." = "hola."
    ∧ pySanitize "fin.Inicio" = "fin. Inicio"
    ∧ pySanitize "a\n\n\n\n\nb" = "a\n\nb"
    ∧ insertSpaceAfterPeriod "hola.".data = "hola. ".data
    ∧ pySanitize "hola." = "hola." := by
  decide

/-- C9: a 12-page document with 5 pages per batch is processed in exactly 3
batches covering (0-based) page ranges [0,5), [5,10), [10,12); after each
batch the progress signal is `end_idx / total_pages`, the values are
strictly increasing, and the last one is exactly 1. -/
theorem C9_batches_progress :
    batchStarts pages12.length = [0, 5, 10]
    ∧ (batchStarts pages12.length).map
        (fun s => (s, min (s + CHUNK_SIZE) pages12.length)) = [(0, 5), (5, 10), (10, 12)]
    ∧ progressPairs pages12 = [(5, 12), (10, 12), (12, 12)]
    ∧ progressTrace pages12 = [5/12, 10/12, 1]
    ∧ List.Chain' (· < ·) (progressTrace pages12)
    ∧ (progressTrace pages12).getLast? = some 1 := by
  have hp : progressPairs pages12 = [(5, 12), (10, 12), (12, 12)] := by decide
  have ht : progressTrace pages12 = [5/12, 10/12, 1] := by
    rw [progressTrace, hp]
    norm_num
  refine ⟨by decide, by decide, hp, ht, ?_, ?_⟩
  · rw [ht]
    refine List.Chain'.cons (by norm_num) (List.Chain'.cons (by norm_num) ?_)
    exact List.chain'_singleton 1
  · rw [ht]
    rfl

/-- C10: applied to `None` the sanitizer returns the empty string; for any
string input every transformation step is total (the `except` branch is
unreachable), so it never raises and returns the sanitized text. -/
theorem C10_none_guard :
    post_process_text none = "" ∧ ∀ s : String, post_process_text (some s) = pySanitize s :=
  ⟨rfl, fun _ => rfl⟩

/-! ## TextSanitizer lemmas: towards idempotence (C2) -/

theorem punct_not_space {c : Char} (h : isPunct c = true) : pyIsSpace c = false := by
  unfold isPunct at h
  simp only [Bool.or_eq_true, decide_eq_true_eq] at h
  rcases h with ((((h | h) | h) | h) | h) | h <;> subst h <;> decide

theorem punct_whitelisted {c : Char} (h : isPunct c = true) : isWhitelisted c = true := by
  unfold isWhitelisted
  rw [h]
  simp

theorem space_whitelisted {c : Char} (h : pyIsSpace c = true) : isWhitelisted c = true := by
  unfold isWhitelisted
  rw [h]
  simp

/-- Characters of the whitespace-collapse output come from the input. -/
theorem mem_stripWs {c : Char} : ∀ {l : List Char}, c ∈ stripWsBeforePunct l → c ∈ l := by
  intro l
  induction l with
  | nil => intro h; exact h
  | cons a l ih =>
    intro h
    rw [stripWsBeforePunct] at h
    by_cases hc : (pyIsSpace a && wsBeforePunct l) = true
    · rw [if_pos hc] at h
      exact List.mem_cons_of_mem a (ih h)
    · rw [if_neg hc] at h
      rcases List.mem_cons.mp h with rfl | h
      · exact List.mem_cons_self _ _
      · exact List.mem_cons_of_mem a (ih h)

/-- Characters of the period-spacing output come from the input or are the
inserted space. -/
theorem mem_insertSpace {c : Char} :
    ∀ {l : List Char}, c ∈ insertSpaceAfterPeriod l → c ∈ l ∨ c = ' ' := by
  intro l
  induction l with
  | nil => intro h; exact Or.inl h
  | cons a l ih =>
    intro h
    cases l with
    | nil =>
      rw [insertSpaceAfterPeriod] at h
      by_cases ha : a = '.'
      · rw [if_pos ha] at h
        subst ha
        rcases List.mem_cons.mp h with rfl | h
        · exact Or.inl (List.mem_cons_self _ _)
        · simp at h
          exact Or.inr h
      · rw [if_neg ha] at h
        exact Or.inl h
    | cons d r =>
      rw [insertSpaceAfterPeriod] at h
      by_cases ha : a = '.'
      · rw [if_pos ha] at h
        by_cases hd : pyIsSpace d = true
        · rw [if_pos hd] at h
          rcases List.mem_cons.mp h with rfl | h
          · exact Or.inl (by rw [ha]; exact List.mem_cons_self _ _)
          · rcases ih h with h | h
            · exact Or.inl (List.mem_cons_of_mem a h)
            · exact Or.inr h
        · rw [if_neg hd] at h
          rcases List.mem_cons.mp h with rfl | h
          · exact Or.inl (by rw [ha]; exact List.mem_cons_self _ _)
          · rcases List.mem_cons.mp h with rfl | h
            · exact Or.inr rfl
            · rcases ih h with h | h
              · exact Or.inl (List.mem_cons_of_mem a h)
              · exact Or.inr h
      · rw [if_neg ha] at h
        rcases List.mem_cons.mp h with rfl | h
        · exact Or.inl (List.mem_cons_self _ _)
        · rcases ih h with h | h
          · exact Or.inl (List.mem_cons_of_mem a h)
          · exact Or.inr h

/-- Characters of the newline-collapse output come from the input. -/
theorem mem_collapseNl {c : Char} : ∀ {l : List Char}, c ∈ collapseNewlines l → c ∈ l := by
  intro l
  induction l with
  | nil => intro h; exact h
  | cons a l ih =>
    intro h
    cases l with
    | nil => exact h
    | cons b l' =>
      cases l' with
      | nil => exact h
      | cons d r =>
        rw [collapseNewlines] at h
        by_cases hc : (decide (a = '\n') && decide (b = '\n') && decide (d = '\n')) = true
        · rw [if_pos hc] at h
          exact List.mem_cons_of_mem a (ih h)
        · rw [if_neg hc] at h
          rcases List.mem_cons.mp h with rfl | h
          · exact List.mem_cons_self _ _
          · exact List.mem_cons_of_mem a (ih h)

/-- Characters of `trimRight` output come from the input. -/
theorem mem_trimRight {c : Char} : ∀ {l : List Char}, c ∈ trimRight l → c ∈ l := by
  intro l
  induction l with
  | nil => intro h; exact h
  | cons a l ih =>
    intro h
    rw [trimRight] at h
    by_cases hc : ((trimRight l).isEmpty && pyIsSpace a) = true
    · rw [if_pos hc] at h
      simp at h
    · rw [if_neg hc] at h
      rcases List.mem_cons.mp h with rfl | h
      · exact List.mem_cons_self _ _
      · exact List.mem_cons_of_mem a (ih h)

/-- Every character of the sanitizer's output is whitelisted. -/
theorem sanitize_whitelisted {c : Char} {l : List Char} (h : c ∈ sanitizeChars l) :
    isWhitelisted c = true := by
  unfold sanitizeChars pyStrip trimLeft at h
  have h1 := mem_trimRight ((List.dropWhile_sublist _).subset h)
  have h2 := mem_collapseNl h1
  rcases mem_insertSpace h2 with h3 | h3
  · have h4 := mem_stripWs h3
    exact List.of_mem_filter h4
  · subst h3
    decide

/-- A fully whitelisted list is untouched by the whitelist filter. -/
theorem filter_whitelist_id {l : List Char} (h : ∀ c ∈ l, isWhitelisted c = true) :
    removeNonWhitelisted l = l :=
  List.filter_eq_self.mpr h

/-- If the list does not start with a whitespace run reaching punctuation,
its head after the whitespace collapse is not punctuation. -/
theorem stripWs_head_punct {l : List Char} (h : wsBeforePunct l = false) :
    ∀ b ∈ (stripWsBeforePunct l).head?, isPunct b = false := by
  intro b hb
  cases l with
  | nil => simp [stripWsBeforePunct] at hb
  | cons d ds =>
    rw [wsBeforePunct] at h
    rcases Bool.or_eq_false_iff.mp h with ⟨h1, h2⟩
    rw [stripWsBeforePunct, if_neg (by rw [h2]; simp)] at hb
    have hbd : d = b := by simpa using hb
    subst hbd
    exact h1

theorem noWsPunct_cons {a : Char} {l : List Char}
    (h1 : ∀ b ∈ l.head?, (pyIsSpace a && isPunct b) = false)
    (h2 : noWsPunct l = true) : noWsPunct (a :: l) = true := by
  cases l with
  | nil => rfl
  | cons b r =>
    rw [noWsPunct, h1 b rfl]
    simpa using h2

/-- After the whitespace collapse, no whitespace immediately precedes a
punctuation character. -/
theorem noWsPunct_stripWs : ∀ (l : List Char), noWsPunct (stripWsBeforePunct l) = true := by
  intro l
  induction l with
  | nil => rfl
  | cons a l ih =>
    rw [stripWsBeforePunct]
    by_cases hc : (pyIsSpace a && wsBeforePunct l) = true
    · rw [if_pos hc]
      exact ih
    · rw [if_neg hc]
      apply noWsPunct_cons _ ih
      intro b hb
      by_cases hs : pyIsSpace a = true
      · have hw : wsBeforePunct l = false := by
          rcases Bool.and_eq_false_iff.mp (Bool.eq_false_iff.mpr hc) with h | h
          · exact absurd hs (by rw [h]; simp)
          · exact h
        rw [hs, stripWs_head_punct hw b hb]
        rfl
      · rw [Bool.not_eq_true] at hs
        rw [hs]
        rfl

theorem noWsPunct_tail {a : Char} {l : List Char} (h : noWsPunct (a :: l) = true) :
    noWsPunct l = true := by
  cases l with
  | nil => rfl
  | cons b r =>
    rw [noWsPunct] at h
    exact (Bool.and_eq_true_iff.mp h).2

/-- The first window of `wsPunctShaped` does not look at `prev` unless it is
a whitespace-before-punctuation window. -/
theorem wsPunctShaped_swap_prev {a b : Char} {l : List Char} (p q : Char)
    (hw : (pyIsSpace a && isPunct b) = false) :
    wsPunctShaped p (a :: b :: l) = wsPunctShaped q (a :: b :: l) := by
  rw [wsPunctShaped, wsPunctShaped, if_neg (by rw [hw]; simp),
    if_neg (by rw [hw]; simp)]

theorem wsPunctShaped_tail {p a : Char} {l : List Char}
    (h : wsPunctShaped p (a :: l) = true) : wsPunctShaped a l = true := by
  cases l with
  | nil => rfl
  | cons b r =>
    rw [wsPunctShaped] at h
    exact (Bool.and_eq_true_iff.mp h).2

theorem wsPunctShaped_cons {prev a : Char} {l : List Char}
    (hwin : ∀ b ∈ l.head?, (pyIsSpace a && isPunct b) = true →
      (a == ' ' && prev == '.') = true)
    (htail : wsPunctShaped a l = true) : wsPunctShaped prev (a :: l) = true := by
  cases l with
  | nil => rfl
  | cons b r =>
    rw [wsPunctShaped]
    by_cases hw : (pyIsSpace a && isPunct b) = true
    · rw [if_pos hw, hwin b rfl hw]
      simpa using htail
    · rw [if_neg hw]
      simpa using htail

/-- The period-spacing step does not change the first character. -/
theorem insertSpace_head : ∀ (a : Char) (l : List Char),
    (insertSpaceAfterPeriod (a :: l)).head? = some a := by
  intro a l
  cases l with
  | nil =>
    rw [insertSpaceAfterPeriod]
    by_cases ha : a = '.'
    · rw [if_pos ha, ha]
      rfl
    · rw [if_neg ha]
      rfl
  | cons d r =>
    rw [insertSpaceAfterPeriod]
    by_cases ha : a = '.'
    · rw [if_pos ha, ha]
      by_cases hd : pyIsSpace d = true
      · rw [if_pos hd]
        rfl
      · rw [if_neg hd]
        rfl
    · rw [if_neg ha]
      rfl

/-- After the period-spacing step (applied to whitespace-collapsed text),
every whitespace character standing before punctuation is an inserted single
space preceded by a period. -/
theorem wsPunctShaped_insertSpace :
    ∀ (l : List Char), noWsPunct l = true → ∀ prev,
      wsPunctShaped prev (insertSpaceAfterPeriod l) = true := by
  intro l
  induction l with
  | nil => intro _ prev; rfl
  | cons a l ih =>
    intro hn prev
    cases l with
    | nil =>
      rw [insertSpaceAfterPeriod]
      by_cases ha : a = '.'
      · rw [if_pos ha]
        rfl
      · rw [if_neg ha]
        rfl
    | cons d r =>
      have hn2 : noWsPunct (d :: r) = true := noWsPunct_tail hn
      have hwin : (pyIsSpace a && isPunct d) = false := by
        rw [noWsPunct] at hn
        have h1 := (Bool.and_eq_true_iff.mp hn).1
        cases hx : (pyIsSpace a && isPunct d) with
        | false => rfl
        | true =>
          rw [hx] at h1
          exact absurd h1 (by decide)
      rw [insertSpaceAfterPeriod]
      by_cases ha : a = '.'
      · by_cases hd : pyIsSpace d = true
        · rw [if_pos ha, if_pos hd]
          apply wsPunctShaped_cons _ (ih hn2 '.')
          intro b hb hcond
          exfalso
          have hbs : pyIsSpace '.' = false := by decide
          rw [hbs] at hcond
          simp at hcond
        · rw [if_pos ha, if_neg hd]
          apply wsPunctShaped_cons
          · intro b hb hcond
            exfalso
            have hbs : pyIsSpace '.' = false := by decide
            rw [hbs] at hcond
            simp at hcond
          · apply wsPunctShaped_cons _ (ih hn2 ' ')
            intro b hb hcond
            decide
      · rw [if_neg ha]
        apply wsPunctShaped_cons _ (ih hn2 a)
        intro b hb hcond
        exfalso
        rw [insertSpace_head d r] at hb
        have hbd : d = b := by simpa using hb
        subst hbd
        rw [hwin] at hcond
        simp at hcond

theorem periodSpaced_cons {a : Char} {l : List Char}
    (hwin : ∀ b ∈ l.head?, a = '.' → pyIsSpace b = true)
    (htail : periodSpaced l = true) : periodSpaced (a :: l) = true := by
  cases l with
  | nil => rfl
  | cons b r =>
    rw [periodSpaced]
    by_cases ha : a = '.'
    · rw [hwin b rfl ha]
      simpa using htail
    · have hb : (a == '.') = false := by simpa using ha
      rw [hb]
      simpa using htail

theorem periodSpaced_tail {a : Char} {l : List Char} (h : periodSpaced (a :: l) = true) :
    periodSpaced l = true := by
  cases l with
  | nil => rfl
  | cons b r =>
    rw [periodSpaced] at h
    exact (Bool.and_eq_true_iff.mp h).2

/-- After the period-spacing step, every non-final period is followed by
whitespace. -/
theorem periodSpaced_insertSpace :
    ∀ (l : List Char), periodSpaced (insertSpaceAfterPeriod l) = true := by
  intro l
  induction l with
  | nil => rfl
  | cons a l ih =>
    cases l with
    | nil =>
      rw [insertSpaceAfterPeriod]
      by_cases ha : a = '.'
      · rw [if_pos ha]
        rfl
      · rw [if_neg ha]
        rfl
    | cons d r =>
      rw [insertSpaceAfterPeriod]
      by_cases ha : a = '.'
      · by_cases hd : pyIsSpace d = true
        · rw [if_pos ha, if_pos hd]
          apply periodSpaced_cons _ ih
          intro b hb _
          rw [insertSpace_head d r] at hb
          have hbd : d = b := by simpa using hb
          subst hbd
          exact hd
        · rw [if_pos ha, if_neg hd]
          apply periodSpaced_cons
          · intro b hb _
            have hbs : ' ' = b := by simpa using hb
            subst hbs
            decide
          · apply periodSpaced_cons _ ih
            intro b hb hsp
            exact absurd hsp (by decide)
      · rw [if_neg ha]
        apply periodSpaced_cons _ ih
        intro b hb ha2
        exact absurd ha2 ha

/-- The newline collapse does not change the first character. -/
theorem collapseNl_head : ∀ (l : List Char), (collapseNewlines l).head? = l.head? := by
  intro l
  induction l with
  | nil => rfl
  | cons a l ih =>
    cases l with
    | nil => rfl
    | cons b l' =>
      cases l' with
      | nil => rfl
      | cons d r =>
        rw [collapseNewlines]
        by_cases hc : (decide (a = '\n') && decide (b = '\n') && decide (d = '\n')) = true
        · rw [if_pos hc, ih]
          simp only [Bool.and_eq_true, decide_eq_true_eq] at hc
          rw [hc.1.1, hc.1.2]
          rfl
        · rw [if_neg hc]
          rfl

/-- Collapsing a list that does not start with a newline keeps its head. -/
theorem collapseNl_cons_ne {a : Char} (l : List Char) (ha : a ≠ '\n') :
    collapseNewlines (a :: l) = a :: collapseNewlines l := by
  cases l with
  | nil => rfl
  | cons b l' =>
    cases l' with
    | nil => rfl
    | cons d r =>
      rw [collapseNewlines, if_neg (by simp [ha])]

/-- Collapsing keeps the first two characters when the second is not a
newline. -/
theorem collapseNl_two {b d : Char} (r : List Char) (hd : d ≠ '\n') :
    collapseNewlines (b :: d :: r) = b :: d :: collapseNewlines r := by
  cases r with
  | nil => rfl
  | cons e r' =>
    rw [collapseNewlines, if_neg (by simp [hd]), collapseNl_cons_ne (e :: r') hd]

/-- The newline collapse preserves the whitespace-before-punctuation shape. -/
theorem wsPunctShaped_collapseNl :
    ∀ (l : List Char) (prev : Char), wsPunctShaped prev l = true →
      wsPunctShaped prev (collapseNewlines l) = true := by
  intro l
  induction l with
  | nil => intro prev h; exact h
  | cons a l ih =>
    intro prev h
    cases l with
    | nil => exact h
    | cons b l' =>
      cases l' with
      | nil => exact h
      | cons d r =>
        rw [collapseNewlines]
        by_cases hc : (decide (a = '\n') && decide (b = '\n') && decide (d = '\n')) = true
        · rw [if_pos hc]
          simp only [Bool.and_eq_true, decide_eq_true_eq] at hc
          obtain ⟨⟨ha, hb⟩, hd⟩ := hc
          apply ih
          have hTail := wsPunctShaped_tail h
          subst hd
          rw [wsPunctShaped_swap_prev prev a (by subst hb; rfl)]
          exact hTail
        · rw [if_neg hc]
          apply wsPunctShaped_cons
          · intro x hx hcond
            rw [collapseNl_head] at hx
            have hxb : b = x := by simpa using hx
            subst hxb
            rw [wsPunctShaped] at h
            have h1 := (Bool.and_eq_true_iff.mp h).1
            rw [if_pos hcond] at h1
            exact h1
          · exact ih a (wsPunctShaped_tail h)

/-- The newline collapse preserves period spacing. -/
theorem periodSpaced_collapseNl :
    ∀ (l : List Char), periodSpaced l = true →
      periodSpaced (collapseNewlines l) = true := by
  intro l
  induction l with
  | nil => intro h; exact h
  | cons a l ih =>
    intro h
    cases l with
    | nil => exact h
    | cons b l' =>
      cases l' with
      | nil => exact h
      | cons d r =>
        rw [collapseNewlines]
        by_cases hc : (decide (a = '\n') && decide (b = '\n') && decide (d = '\n')) = true
        · rw [if_pos hc]
          exact ih (periodSpaced_tail h)
        · rw [if_neg hc]
          apply periodSpaced_cons
          · intro x hx ha
            rw [collapseNl_head] at hx
            have hxb : b = x := by simpa using hx
            subst hxb
            rw [periodSpaced] at h
            have h1 := (Bool.and_eq_true_iff.mp h).1
            rw [ha] at h1
            simpa using h1
          · exact ih (periodSpaced_tail h)

theorem noTripleNl_cons {a : Char} {l : List Char}
    (hwin : ∀ x y r, l = x :: y :: r →
      (decide (a = '\n') && decide (x = '\n') && decide (y = '\n')) = false)
    (htail : noTripleNl l = true) : noTripleNl (a :: l) = true := by
  cases l with
  | nil => rfl
  | cons x l' =>
    cases l' with
    | nil => rfl
    | cons y r =>
      rw [noTripleNl]
      have hw := hwin x y r rfl
      rw [show (a == '\n' && x == '\n' && y == '\n')
          = (decide (a = '\n') && decide (x = '\n') && decide (y = '\n')) from rfl, hw]
      simpa using htail

/-- The collapse output has no three consecutive newlines. -/
theorem noTripleNl_collapseNl : ∀ (l : List Char), noTripleNl (collapseNewlines l) = true := by
  intro l
  induction l with
  | nil => rfl
  | cons a l ih =>
    cases l with
    | nil => rfl
    | cons b l' =>
      cases l' with
      | nil => rfl
      | cons d r =>
        rw [collapseNewlines]
        by_cases hc : (decide (a = '\n') && decide (b = '\n') && decide (d = '\n')) = true
        · rw [if_pos hc]
          exact ih
        · rw [if_neg hc]
          apply noTripleNl_cons _ ih
          intro x y r' heq
          by_cases ha : a = '\n'
          · by_cases hb : b = '\n'
            · have hdn : d ≠ '\n' := by
                intro hdc
                exact hc (by simp [ha, hb, hdc])
              rw [collapseNl_two r hdn] at heq
              injection heq with h1 h2
              injection h2 with h3 h4
              subst h3
              simp [hdn]
            · have hxb : x = b := by
                have hh := collapseNl_head (b :: d :: r)
                rw [heq] at hh
                simpa using hh
              subst hxb
              simp [hb]
          · simp [ha]

/-! ### Trim lemmas -/

/-- `trimRight` keeps an initial segment of the list. -/
theorem trimRight_app : ∀ (l : List Char), ∃ t, l = trimRight l ++ t := by
  intro l
  induction l with
  | nil => exact ⟨[], rfl⟩
  | cons a l ih =>
    rw [trimRight]
    by_cases hc : ((trimRight l).isEmpty && pyIsSpace a) = true
    · rw [if_pos hc]
      exact ⟨a :: l, rfl⟩
    · rw [if_neg hc]
      obtain ⟨t, ht⟩ := ih
      refine ⟨t, ?_⟩
      rw [List.cons_append, ← ht]

/-- `wsPunctShaped` restricts to initial segments. -/
theorem wsPunctShaped_append_left :
    ∀ (l₁ l₂ : List Char) (p : Char), wsPunctShaped p (l₁ ++ l₂) = true →
      wsPunctShaped p l₁ = true := by
  intro l₁
  induction l₁ with
  | nil => intro l₂ p _; rfl
  | cons a l₁ ih =>
    intro l₂ p h
    cases l₁ with
    | nil => rfl
    | cons b r =>
      rw [List.cons_append, List.cons_append] at h
      rw [wsPunctShaped] at h ⊢
      obtain ⟨h1, h2⟩ := Bool.and_eq_true_iff.mp h
      rw [h1, Bool.true_and]
      exact ih l₂ a (by simpa using h2)

/-- `periodSpaced` restricts to initial segments. -/
theorem periodSpaced_append_left :
    ∀ (l₁ l₂ : List Char), periodSpaced (l₁ ++ l₂) = true → periodSpaced l₁ = true := by
  intro l₁
  induction l₁ with
  | nil => intro l₂ _; rfl
  | cons a l₁ ih =>
    intro l₂ h
    cases l₁ with
    | nil => rfl
    | cons b r =>
      rw [List.cons_append, List.cons_append] at h
      rw [periodSpaced] at h ⊢
      obtain ⟨h1, h2⟩ := Bool.and_eq_true_iff.mp h
      rw [h1, Bool.true_and]
      exact ih l₂ (by simpa using h2)

/-- `noTripleNl` restricts to initial segments. -/
theorem noTripleNl_append_left :
    ∀ (l₁ l₂ : List Char), noTripleNl (l₁ ++ l₂) = true → noTripleNl l₁ = true := by
  intro l₁
  induction l₁ with
  | nil => intro l₂ _; rfl
  | cons a l₁ ih =>
    intro l₂ h
    cases l₁ with
    | nil => rfl
    | cons b r =>
      cases r with
      | nil => rfl
      | cons d r' =>
        rw [List.cons_append, List.cons_append, List.cons_append] at h
        rw [noTripleNl] at h ⊢
        obtain ⟨h1, h2⟩ := Bool.and_eq_true_iff.mp h
        rw [h1, Bool.true_and]
        exact ih l₂ (by simpa using h2)

theorem noTripleNl_tail {a : Char} {l : List Char} (h : noTripleNl (a :: l) = true) :
    noTripleNl l = true := by
  cases l with
  | nil => rfl
  | cons b l' =>
    cases l' with
    | nil => rfl
    | cons d r =>
      rw [noTripleNl] at h
      exact (Bool.and_eq_true_iff.mp h).2

/-- `trimLeft` turns any shaped list into a top-level shaped list. -/
theorem wsPunctTop_trimLeft :
    ∀ (l : List Char) (p : Char), wsPunctShaped p l = true →
      wsPunctTop (trimLeft l) = true := by
  intro l
  induction l with
  | nil => intro p _; rfl
  | cons a l ih =>
    intro p h
    unfold trimLeft at *
    rw [List.dropWhile_cons]
    by_cases hs : pyIsSpace a = true
    · rw [if_pos hs]
      exact ih a (wsPunctShaped_tail h)
    · rw [if_neg hs]
      cases l with
      | nil => rfl
      | cons b r =>
        unfold wsPunctTop
        rw [wsPunctShaped_swap_prev 'A' p
          (by rw [Bool.not_eq_true] at hs; rw [hs]; rfl)]
        exact h

theorem periodSpaced_trimLeft {l : List Char} (h : periodSpaced l = true) :
    periodSpaced (trimLeft l) = true := by
  induction l with
  | nil => exact h
  | cons a l ih =>
    unfold trimLeft at *
    rw [List.dropWhile_cons]
    by_cases hs : pyIsSpace a = true
    · rw [if_pos hs]
      exact ih (periodSpaced_tail h)
    · rw [if_neg hs]
      exact h

theorem noTripleNl_trimLeft {l : List Char} (h : noTripleNl l = true) :
    noTripleNl (trimLeft l) = true := by
  induction l with
  | nil => exact h
  | cons a l ih =>
    unfold trimLeft at *
    rw [List.dropWhile_cons]
    by_cases hs : pyIsSpace a = true
    · rw [if_pos hs]
      exact ih (noTripleNl_tail h)
    · rw [if_neg hs]
      exact h

/-- The default value of `getLastD` is irrelevant on non-empty lists. -/
theorem getLastD_irrel {m : List Char} (h : m ≠ []) (d₁ d₂ : Char) :
    m.getLastD d₁ = m.getLastD d₂ := by
  rw [List.getLastD_eq_getLast?, List.getLastD_eq_getLast?,
    List.getLast?_eq_getLast m h]
  rfl

/-- The last character of a `trimRight` output is not whitespace. -/
theorem trimRight_last : ∀ (l : List Char),
    trimRight l = [] ∨ pyIsSpace ((trimRight l).getLastD 'x') = false := by
  intro l
  induction l with
  | nil => exact Or.inl rfl
  | cons a l ih =>
    rw [trimRight]
    by_cases hc : ((trimRight l).isEmpty && pyIsSpace a) = true
    · rw [if_pos hc]
      exact Or.inl rfl
    · rw [if_neg hc]
      right
      rcases eq_or_ne (trimRight l) [] with hm | hm
      · have hsa : pyIsSpace a = false := by
          rcases Bool.and_eq_false_iff.mp (Bool.eq_false_iff.mpr hc) with h | h
          · rw [hm] at h
            simp at h
          · exact h
        rw [hm]
        simpa using hsa
      · rcases ih with h | h
        · exact absurd h hm
        · rw [List.getLastD_cons, getLastD_irrel hm a 'x']
          exact h

/-- The first character of a `trimLeft` output is not whitespace. -/
theorem trimLeft_head : ∀ (l : List Char),
    pyIsSpace ((trimLeft l).headD 'x') = false := by
  intro l
  induction l with
  | nil => decide
  | cons a l ih =>
    unfold trimLeft at *
    rw [List.dropWhile_cons]
    by_cases hs : pyIsSpace a = true
    · rw [if_pos hs]
      exact ih
    · rw [if_neg hs]
      rw [List.headD_cons]
      exact Bool.eq_false_iff.mpr hs

/-- `trimLeft` keeps the last element of the list when its output is
non-empty. -/
theorem trimLeft_getLast? : ∀ (l : List Char), trimLeft l ≠ [] →
    (trimLeft l).getLast? = l.getLast? := by
  intro l
  induction l with
  | nil => intro h; exact absurd rfl h
  | cons a l ih =>
    intro h
    unfold trimLeft at *
    rw [List.dropWhile_cons] at h ⊢
    by_cases hs : pyIsSpace a = true
    · rw [if_pos hs] at h ⊢
      rw [ih h]
      have hl : l ≠ [] := by
        intro he
        rw [he] at h
        exact h rfl
      cases l with
      | nil => exact absurd rfl hl
      | cons b r => rw [List.getLast?_cons_cons]
    · rw [if_neg hs]

/-- The output of `strip` has no whitespace at either end. -/
theorem trimmed_strip (l : List Char) : trimmed (pyStrip l) = true := by
  unfold pyStrip trimmed
  rw [Bool.and_eq_true]
  constructor
  · simpa using trimLeft_head (trimRight l)
  · rcases eq_or_ne (trimLeft (trimRight l)) [] with h | h
    · rw [h]
      decide
    · rw [List.getLastD_eq_getLast?, trimLeft_getLast? _ h]
      rcases trimRight_last l with h2 | h2
      · exfalso
        apply h
        rw [h2]
        rfl
      · rw [← List.getLastD_eq_getLast?]
        simpa using h2

/-! ### Reconstruction: the sanitizer fixes normal-form text -/

/-- The insertion step skips a non-period head. -/
theorem insertSpace_cons_ne {c : Char} (m : List Char) (hc : c ≠ '.') :
    insertSpaceAfterPeriod (c :: m) = c :: insertSpaceAfterPeriod m := by
  cases m with
  | nil =>
    show (if c = '.' then ['.', ' '] else [c]) = c :: insertSpaceAfterPeriod []
    rw [if_neg hc]
    rfl
  | cons d r => rw [insertSpaceAfterPeriod, if_neg hc]

/-- A shaped list headed by a non-period character is shaped at top level. -/
theorem wsPunctTop_of_ne {c : Char} {l : List Char} (hc : c ≠ '.')
    (h : wsPunctShaped c l = true) : wsPunctTop l = true := by
  cases l with
  | nil => rfl
  | cons a l' =>
    cases l' with
    | nil => rfl
    | cons b r =>
      have hw : (pyIsSpace a && isPunct b) = false := by
        by_cases hx : (pyIsSpace a && isPunct b) = true
        · exfalso
          rw [wsPunctShaped, if_pos hx] at h
          have hx1 := (Bool.and_eq_true_iff.mp h).1
          have hx2 := (Bool.and_eq_true_iff.mp hx1).2
          exact hc (by simpa using hx2)
        · exact Bool.eq_false_iff.mpr hx
      unfold wsPunctTop
      rw [wsPunctShaped_swap_prev 'A' c hw]
      exact h

/-- In shaped text, a whitespace run that reaches punctuation and follows a
whitespace character must start with the punctuation itself. -/
theorem wsBefore_punct_head :
    ∀ (l : List Char) (p : Char), pyIsSpace p = true → wsPunctShaped p l = true →
      wsBeforePunct l = true → isPunct (l.headD 'x') = true := by
  intro l
  induction l with
  | nil =>
    intro p _ _ hw
    exact absurd hw (by decide)
  | cons a l ih =>
    intro p hp h hw
    rw [wsBeforePunct] at hw
    rcases Bool.or_eq_true_iff.mp hw with h1 | h1
    · simpa using h1
    · obtain ⟨hsa, hwl⟩ := Bool.and_eq_true_iff.mp h1
      exfalso
      have hpl := ih a hsa (wsPunctShaped_tail h) hwl
      cases l with
      | nil => exact absurd hwl (by decide)
      | cons b r =>
        rw [List.headD_cons] at hpl
        rw [wsPunctShaped] at h
        have h1x := (Bool.and_eq_true_iff.mp h).1
        rw [if_pos (by rw [hsa, hpl]; rfl)] at h1x
        have hpd := (Bool.and_eq_true_iff.mp h1x).2
        have hpx : p = '.' := by simpa using hpd
        subst hpx
        exact absurd hp (by decide)

theorem insTail_cons {c : Char} {cs : List Char} (h : cs ≠ []) :
    insTail (c :: cs) = insTail cs := by
  unfold insTail endsDot
  rw [List.getLastD_cons, getLastD_irrel h c 'x']

theorem insTail_single {c : Char} (hc : c ≠ '.') : insTail [c] = [] := by
  unfold insTail endsDot
  rw [if_neg (by simpa using hc)]

/-- The heart of idempotence: on text in normal form, the whitespace
collapse removes exactly the spaces that the period-spacing step reinserts;
the only net effect is the space appended after a terminal period. -/
theorem reconstructAux : ∀ (n : Nat) (l : List Char), l.length ≤ n →
    wsPunctTop l = true → periodSpaced l = true →
    insertSpaceAfterPeriod (stripWsBeforePunct l) = l ++ insTail l := by
  intro n
  induction n with
  | zero =>
    intro l hl _ _
    have hln : l = [] := List.eq_nil_of_length_eq_zero (Nat.le_zero.mp hl)
    subst hln
    rfl
  | succ n ih =>
    intro l hl h2 h3
    cases l with
    | nil => rfl
    | cons c cs =>
      by_cases hsc : pyIsSpace c = true
      · -- a leading-in-window whitespace character; it cannot precede
        -- punctuation (the text is shaped), so it is kept
        have hwcs : wsBeforePunct cs = false := by
          by_cases hx : wsBeforePunct cs = true
          · exfalso
            have hpe := wsBefore_punct_head cs c hsc (wsPunctShaped_tail h2) hx
            cases cs with
            | nil => exact absurd hx (by decide)
            | cons e es =>
              rw [List.headD_cons] at hpe
              rw [wsPunctTop, wsPunctShaped] at h2
              have h2x := (Bool.and_eq_true_iff.mp h2).1
              rw [if_pos (by rw [hsc, hpe]; rfl)] at h2x
              have hA := (Bool.and_eq_true_iff.mp h2x).2
              simp at hA
          · exact Bool.eq_false_iff.mpr hx
        rw [stripWsBeforePunct, if_neg (by rw [hwcs]; simp)]
        have hcd : c ≠ '.' := by
          intro hxc
          subst hxc
          exact absurd hsc (by decide)
        rw [insertSpace_cons_ne _ hcd]
        rw [ih cs (by simpa using Nat.le_of_succ_le_succ hl)
          (wsPunctTop_of_ne hcd (wsPunctShaped_tail h2)) (periodSpaced_tail h3)]
        cases cs with
        | nil => rw [insTail_single hcd]; rfl
        | cons e es => rw [@insTail_cons c (e :: es) (by simp)]; rfl
      · by_cases hcd : c = '.'
        · subst hcd
          cases cs with
          | nil => rfl
          | cons d ds =>
            have hsd : pyIsSpace d = true := by
              rw [periodSpaced] at h3
              have h3x := (Bool.and_eq_true_iff.mp h3).1
              simpa using h3x
            rw [stripWsBeforePunct, if_neg (by simp [pyIsSpace])]
            by_cases hwds : wsBeforePunct ds = true
            · -- the space before the punctuation is removed and reinserted
              have hpp := wsBefore_punct_head ds d hsd
                (wsPunctShaped_tail (wsPunctShaped_tail h2)) hwds
              cases ds with
              | nil => exact absurd hwds (by decide)
              | cons p ds2 =>
                rw [List.headD_cons] at hpp
                -- the window (d, p) forces d to be the single space
                have hde : d = ' ' := by
                  rw [wsPunctTop, wsPunctShaped] at h2
                  have htl := (Bool.and_eq_true_iff.mp h2).2
                  rw [wsPunctShaped] at htl
                  have htw := (Bool.and_eq_true_iff.mp htl).1
                  rw [if_pos (by rw [hsd, hpp]; rfl)] at htw
                  have hds := (Bool.and_eq_true_iff.mp htw).1
                  simpa using hds
                rw [stripWsBeforePunct, if_pos (by rw [hsd]; simpa using hwds)]
                rw [stripWsBeforePunct,
                  if_neg (by rw [punct_not_space hpp]; simp)]
                rw [insertSpaceAfterPeriod, if_pos rfl,
                  if_neg (by rw [punct_not_space hpp]; simp)]
                have hih := ih (p :: ds2) (by simp at hl ⊢; omega)
                  (wsPunctTop_of_ne (by rw [hde]; decide)
                    (wsPunctShaped_tail (wsPunctShaped_tail h2)))
                  (periodSpaced_tail (periodSpaced_tail h3))
                rw [stripWsBeforePunct,
                  if_neg (by rw [punct_not_space hpp]; simp)] at hih
                rw [hih, hde]
                rw [show insTail ('.' :: ' ' :: p :: ds2) = insTail (p :: ds2) from by
                  rw [@insTail_cons '.' (' ' :: p :: ds2) (by simp),
                    @insTail_cons ' ' (p :: ds2) (by simp)]]
                rfl
            · have hwds2 : wsBeforePunct ds = false := Bool.eq_false_iff.mpr hwds
              rw [stripWsBeforePunct, if_neg (by rw [hwds2]; simp)]
              rw [insertSpaceAfterPeriod, if_pos rfl, if_pos hsd]
              have hdd : d ≠ '.' := by
                intro hxd
                subst hxd
                exact absurd hsd (by decide)
              rw [insertSpace_cons_ne _ hdd]
              have hih := ih ds (by simp at hl ⊢; omega)
                (wsPunctTop_of_ne hdd (wsPunctShaped_tail (wsPunctShaped_tail h2)))
                (periodSpaced_tail (periodSpaced_tail h3))
              rw [hih]
              cases ds with
              | nil =>
                rw [show insTail ['.', d] = insTail [d] from
                  @insTail_cons '.' [d] (by simp), insTail_single hdd]
                rfl
              | cons e es =>
                rw [show insTail ('.' :: d :: e :: es) = insTail (e :: es) from by
                  rw [@insTail_cons '.' (d :: e :: es) (by simp),
                    @insTail_cons d (e :: es) (by simp)]]
                rfl
        · -- an ordinary character is kept and skipped
          rw [stripWsBeforePunct, if_neg (by rw [Bool.eq_false_iff.mpr hsc]; simp)]
          rw [insertSpace_cons_ne _ hcd]
          rw [ih cs (by simpa using Nat.le_of_succ_le_succ hl)
            (wsPunctTop_of_ne hcd (wsPunctShaped_tail h2)) (periodSpaced_tail h3)]
          cases cs with
          | nil => rw [insTail_single hcd]; rfl
          | cons e es => rw [@insTail_cons c (e :: es) (by simp)]; rfl

/-- Text without triple newlines is untouched by the newline collapse. -/
theorem collapseNl_id : ∀ (l : List Char), noTripleNl l = true →
    collapseNewlines l = l := by
  intro l
  induction l with
  | nil => intro _; rfl
  | cons a l ih =>
    intro h
    cases l with
    | nil => rfl
    | cons b l' =>
      cases l' with
      | nil => rfl
      | cons d r =>
        rw [collapseNewlines]
        rw [noTripleNl] at h
        obtain ⟨h1, h2⟩ := Bool.and_eq_true_iff.mp h
        by_cases hx : (decide (a = '\n') && decide (b = '\n') && decide (d = '\n')) = true
        · exfalso
          simp only [Bool.and_eq_true, decide_eq_true_eq] at hx
          obtain ⟨⟨ha, hb⟩, hd⟩ := hx
          subst ha
          subst hb
          subst hd
          exact absurd h1 (by decide)
        · rw [if_neg hx, ih h2]

/-- Appending a non-newline character cannot create a triple newline. -/
theorem noTripleNl_append_nonNl : ∀ (l : List Char) (c : Char), c ≠ '\n' →
    noTripleNl l = true → noTripleNl (l ++ [c]) = true := by
  intro l c hc
  induction l with
  | nil => intro _; rfl
  | cons a l ih =>
    intro h
    cases l with
    | nil => rfl
    | cons b l' =>
      cases l' with
      | nil =>
        show noTripleNl [a, b, c] = true
        simp [noTripleNl, hc]
      | cons d r =>
        show noTripleNl (a :: b :: d :: (r ++ [c])) = true
        rw [noTripleNl] at h ⊢
        obtain ⟨h1, h2⟩ := Bool.and_eq_true_iff.mp h
        rw [h1, Bool.true_and]
        have hr := ih h2
        simpa using hr

/-- `trimRight` is the identity when the last character is not whitespace. -/
theorem trimRight_id : ∀ (l : List Char), pyIsSpace (l.getLastD 'x') = false →
    trimRight l = l := by
  intro l
  induction l with
  | nil => intro _; rfl
  | cons a l ih =>
    intro h
    rw [trimRight]
    cases l with
    | nil =>
      have hsa : pyIsSpace a = false := by simpa using h
      rw [if_neg (by simp [hsa])]
      rfl
    | cons b r =>
      have hlast : pyIsSpace ((b :: r).getLastD 'x') = false := by
        rw [List.getLastD_cons] at h
        rw [getLastD_irrel (by simp) 'x' a]
        exact h
      rw [ih hlast]
      rw [if_neg (by simp)]

/-- Appending trailing whitespace does not change `trimRight`. -/
theorem trimRight_append_space : ∀ (l : List Char) (c : Char), pyIsSpace c = true →
    trimRight (l ++ [c]) = trimRight l := by
  intro l c hc
  induction l with
  | nil =>
    show (if (trimRight []).isEmpty && pyIsSpace c then [] else c :: trimRight [])
      = trimRight []
    rw [if_pos (by simp [trimRight, hc])]
    rfl
  | cons a l ih =>
    show trimRight (a :: (l ++ [c])) = trimRight (a :: l)
    rw [trimRight, ih, trimRight]

/-- `trimLeft` is the identity when the first character is not whitespace. -/
theorem trimLeft_id : ∀ (l : List Char), pyIsSpace (l.headD 'x') = false →
    trimLeft l = l := by
  intro l h
  cases l with
  | nil => rfl
  | cons a r =>
    rw [List.headD_cons] at h
    unfold trimLeft
    rw [List.dropWhile_cons, if_neg (by simp [h])]

/-- Normal-form text is a fixed point of the sanitizer. -/
theorem sanitize_fixed {l : List Char}
    (h1 : ∀ c ∈ l, isWhitelisted c = true) (h2 : wsPunctTop l = true)
    (h3 : periodSpaced l = true) (h4 : noTripleNl l = true)
    (h5 : trimmed l = true) : sanitizeChars l = l := by
  unfold sanitizeChars
  rw [filter_whitelist_id h1]
  rw [reconstructAux l.length l (Nat.le_refl _) h2 h3]
  have h5h : pyIsSpace (l.headD 'x') = false := by
    have := (Bool.and_eq_true_iff.mp h5).1
    simpa using this
  have h5l : pyIsSpace (l.getLastD 'x') = false := by
    have := (Bool.and_eq_true_iff.mp h5).2
    simpa using this
  by_cases hd : endsDot l = true
  · rw [show insTail l = [' '] from by unfold insTail; rw [if_pos hd]]
    rw [collapseNl_id _ (noTripleNl_append_nonNl l ' ' (by decide) h4)]
    unfold pyStrip
    rw [trimRight_append_space l ' ' (by decide)]
    rw [trimRight_id l h5l]
    exact trimLeft_id l h5h
  · rw [show insTail l = [] from by unfold insTail; rw [if_neg hd]]
    rw [List.append_nil]
    rw [collapseNl_id _ h4]
    unfold pyStrip
    rw [trimRight_id l h5l]
    exact trimLeft_id l h5h

/-- The sanitizer's output is in normal form. -/
theorem sanitize_normal (l : List Char) :
    (∀ c ∈ sanitizeChars l, isWhitelisted c = true)
    ∧ wsPunctTop (sanitizeChars l) = true
    ∧ periodSpaced (sanitizeChars l) = true
    ∧ noTripleNl (sanitizeChars l) = true
    ∧ trimmed (sanitizeChars l) = true := by
  refine ⟨fun c hc => sanitize_whitelisted hc, ?_, ?_, ?_, trimmed_strip _⟩
  · show wsPunctTop (trimLeft (trimRight
      (collapseNewlines (insertSpaceAfterPeriod (stripWsBeforePunct
        (removeNonWhitelisted l)))))) = true
    apply wsPunctTop_trimLeft _ 'A'
    obtain ⟨t, ht⟩ := trimRight_app (collapseNewlines (insertSpaceAfterPeriod
      (stripWsBeforePunct (removeNonWhitelisted l))))
    apply wsPunctShaped_append_left _ t
    rw [← ht]
    exact wsPunctShaped_collapseNl _ 'A'
      (wsPunctShaped_insertSpace _ (noWsPunct_stripWs _) 'A')
  · show periodSpaced (trimLeft (trimRight
      (collapseNewlines (insertSpaceAfterPeriod (stripWsBeforePunct
        (removeNonWhitelisted l)))))) = true
    apply periodSpaced_trimLeft
    obtain ⟨t, ht⟩ := trimRight_app (collapseNewlines (insertSpaceAfterPeriod
      (stripWsBeforePunct (removeNonWhitelisted l))))
    apply periodSpaced_append_left _ t
    rw [← ht]
    exact periodSpaced_collapseNl _ (periodSpaced_insertSpace _)
  · show noTripleNl (trimLeft (trimRight
      (collapseNewlines (insertSpaceAfterPeriod (stripWsBeforePunct
        (removeNonWhitelisted l)))))) = true
    apply noTripleNl_trimLeft
    obtain ⟨t, ht⟩ := trimRight_app (collapseNewlines (insertSpaceAfterPeriod
      (stripWsBeforePunct (removeNonWhitelisted l))))
    apply noTripleNl_append_left _ t
    rw [← ht]
    exact noTripleNl_collapseNl _

/-- C2: the sanitizer is idempotent — applying `post_process_text`'s
transformation twice yields the same result as applying it once, for every
string. -/
theorem C2_sanitize_idempotent (s : String) :
    pySanitize (pySanitize s) = pySanitize s := by
  obtain ⟨hw, h2, h3, h4, h5⟩ := sanitize_normal s.data
  show String.mk (sanitizeChars (String.mk (sanitizeChars s.data)).data)
    = String.mk (sanitizeChars s.data)
  rw [show (String.mk (sanitizeChars s.data)).data = sanitizeChars s.data from rfl]
  rw [sanitize_fixed hw h2 h3 h4 h5]

end PdfExtractor
